import Mathlib

/-!
Verification of `src/requirements_generator.py`.

The Python program scans a project for imported packages, builds a dependency
graph from an external tree collaborator, computes the transitive closure of
required packages, resolves versions with a chain of fallbacks, and writes a
two-section pinned manifest.  External subprocess collaborators are modelled by
passing their textual outputs as explicit parameters; every function below is a
direct translation of the corresponding Python function.
-/

/-- Translation of Python's `str.lower()` on a single character (ASCII fragment,
matching `Char.toLower`): uppercase latin letters are shifted by 32. -/
def pyLowerChar (c : Char) : Char :=
  if 65 ≤ c.toNat ∧ c.toNat ≤ 90 then Char.ofNat (c.toNat + 32) else c

/-- Translation of Python's `str.lower()` (ASCII fragment). -/
def pyLower (s : String) : String :=
  String.mk (s.data.map pyLowerChar)

/-- A string is lowercase when lowering it again changes nothing. -/
def is_lowercase (s : String) : Prop := pyLower s = s

/-- Code-point comparison of character lists: the order Python uses to compare
strings.  Written by structural recursion so that it evaluates inside the
kernel. -/
def pyLtChars : List Char → List Char → Bool
  | [], [] => false
  | [], _ :: _ => true
  | _ :: _, [] => false
  | a :: as, b :: bs =>
    if a.toNat < b.toNat then true
    else if b.toNat < a.toNat then false
    else pyLtChars as bs

/-- Python's `<` on strings. -/
def pyLt (a b : String) : Bool := pyLtChars a.data b.data

/-- Python's `<=` on strings, as a relation for sorting. -/
def pyLeRel (a b : String) : Prop := pyLt b a = false

instance : DecidableRel pyLeRel :=
  fun a b => inferInstanceAs (Decidable (pyLt b a = false))

theorem pyLtChars_asymm : ∀ as bs, pyLtChars as bs = true → pyLtChars bs as = false := by
  intro as
  induction as with
  | nil =>
    intro bs h
    cases bs with
    | nil => simp [pyLtChars] at h
    | cons b bs => simp [pyLtChars]
  | cons a as ih =>
    intro bs h
    cases bs with
    | nil => simp [pyLtChars] at h
    | cons b bs =>
      simp only [pyLtChars] at h ⊢
      by_cases h1 : a.toNat < b.toNat
      · rw [if_neg (by omega), if_pos h1]
      · rw [if_neg h1] at h
        by_cases h2 : b.toNat < a.toNat
        · rw [if_pos h2] at h
          cases h
        · rw [if_neg h2] at h
          rw [if_neg (by omega), if_neg (by omega)]
          exact ih bs h

theorem pyLtChars_eq : ∀ as bs, pyLtChars as bs = false → pyLtChars bs as = false → as = bs := by
  intro as
  induction as with
  | nil =>
    intro bs h1 h2
    cases bs with
    | nil => rfl
    | cons b bs => simp [pyLtChars] at h1
  | cons a as ih =>
    intro bs h1 h2
    cases bs with
    | nil => simp [pyLtChars] at h2
    | cons b bs =>
      simp only [pyLtChars] at h1 h2
      by_cases hab : a.toNat < b.toNat
      · rw [if_pos hab] at h1
        cases h1
      · by_cases hba : b.toNat < a.toNat
        · rw [if_pos hba] at h2
          cases h2
        · rw [if_neg hab, if_neg hba] at h1
          rw [if_neg hba, if_neg hab] at h2
          have hc : a = b := by
            have ht : a.toNat = b.toNat := by omega
            exact Char.ext (UInt32.toNat.inj ht)
          rw [hc, ih bs h1 h2]

theorem pyLtChars_trans :
    ∀ as bs cs, pyLtChars as bs = true → pyLtChars bs cs = true →
      pyLtChars as cs = true := by
  intro as
  induction as with
  | nil =>
    intro bs cs h1 h2
    cases cs with
    | nil =>
      cases bs with
      | nil => exact h1
      | cons b bs => simp [pyLtChars] at h2
    | cons c cs => simp [pyLtChars]
  | cons a as ih =>
    intro bs cs h1 h2
    cases bs with
    | nil => simp [pyLtChars] at h1
    | cons b bs =>
      cases cs with
      | nil => simp [pyLtChars] at h2
      | cons c cs =>
        simp only [pyLtChars] at h1 h2 ⊢
        by_cases hab : a.toNat < b.toNat
        · by_cases hbc : b.toNat < c.toNat
          · rw [if_pos (by omega)]
          · rw [if_neg hbc] at h2
            by_cases hcb : c.toNat < b.toNat
            · rw [if_pos hcb] at h2
              cases h2
            · rw [if_pos (by omega)]
        · rw [if_neg hab] at h1
          by_cases hba : b.toNat < a.toNat
          · rw [if_pos hba] at h1
            cases h1
          · rw [if_neg hba] at h1
            by_cases hbc : b.toNat < c.toNat
            · rw [if_pos (by omega)]
            · rw [if_neg hbc] at h2
              by_cases hcb : c.toNat < b.toNat
              · rw [if_pos hcb] at h2
                cases h2
              · rw [if_neg hcb] at h2
                rw [if_neg (by omega), if_neg (by omega)]
                exact ih bs cs h1 h2

theorem string_data_eq {a b : String} (h : a.data = b.data) : a = b := by
  cases a
  cases b
  exact congrArg String.mk h

instance : IsTotal String pyLeRel :=
  ⟨fun a b => by
    unfold pyLeRel pyLt
    by_cases h : pyLtChars b.data a.data = true
    · exact Or.inr (pyLtChars_asymm _ _ h)
    · exact Or.inl (Bool.of_not_eq_true h)⟩

instance : IsTrans String pyLeRel :=
  ⟨fun a b c hab hbc => by
    unfold pyLeRel pyLt at *
    by_cases hca : pyLtChars c.data a.data = true
    · exfalso
      by_cases h1 : pyLtChars a.data b.data = true
      · have hcb := pyLtChars_trans _ _ _ hca h1
        rw [hcb] at hbc
        cases hbc
      · have hba : a.data = b.data := pyLtChars_eq _ _ (Bool.of_not_eq_true h1) hab
        rw [hba] at hca
        rw [hca] at hbc
        cases hbc
    · exact Bool.of_not_eq_true hca⟩

instance : IsAntisymm String pyLeRel :=
  ⟨fun a b hab hba => by
    unfold pyLeRel pyLt at hab hba
    exact string_data_eq (pyLtChars_eq _ _ hba hab)⟩

/-- Python's `sorted(...)` applied to a set of strings: the unique list of the
set's elements ordered by code points.  Implemented with insertion sort, which
is structurally recursive and hence evaluates inside the kernel; the result is
order-algorithm independent because a sorted permutation is unique. -/
def sortedNames (s : Finset String) : List String :=
  Quot.liftOn s.1 (List.insertionSort pyLeRel) (fun _ _ h =>
    List.eq_of_perm_of_sorted
      ((List.perm_insertionSort _ _).trans (h.trans (List.perm_insertionSort _ _).symm))
      (List.sorted_insertionSort _ _) (List.sorted_insertionSort _ _))

theorem sortedNames_sorted (s : Finset String) :
    List.Sorted pyLeRel (sortedNames s) := by
  cases s with
  | mk m hm =>
    induction m using Quot.inductionOn with
    | h l => exact List.sorted_insertionSort _ l

theorem mem_sortedNames {s : Finset String} {n : String} :
    n ∈ sortedNames s ↔ n ∈ s := by
  cases s with
  | mk m hm =>
    induction m using Quot.inductionOn with
    | h l =>
      constructor
      · intro h
        exact Finset.mem_def.mpr ((List.perm_insertionSort pyLeRel l).mem_iff.mp h)
      · intro h
        exact (List.perm_insertionSort pyLeRel l).mem_iff.mpr (Finset.mem_def.mp h)

theorem sortedNames_eq_nil {s : Finset String} (h : sortedNames s = []) : s = ∅ := by
  ext x
  simp only [Finset.not_mem_empty, iff_false]
  intro hx
  have hmem := mem_sortedNames.mpr hx
  rw [h] at hmem
  cases hmem

/-- Translation of Python's `str.strip()`: drop whitespace from both ends. -/
def pyStrip (s : String) : String :=
  String.mk (((s.data.dropWhile Char.isWhitespace).reverse.dropWhile Char.isWhitespace).reverse)

/-- Worker for `pySplit`, structurally recursive on a fuel bound so that it
evaluates inside the kernel; `fuel` at least the input length always suffices. -/
def pySplitAux (sep : List Char) : List Char → List Char → Nat → List (List Char)
  | rest, acc, 0 => [acc.reverse ++ rest]
  | rest, acc, fuel + 1 =>
    match rest with
    | [] => [acc.reverse]
    | c :: rest2 =>
      if sep.isPrefixOf (c :: rest2) then
        acc.reverse :: pySplitAux sep ((c :: rest2).drop sep.length) [] fuel
      else pySplitAux sep rest2 (c :: acc) fuel

/-- Translation of Python's `str.split(sep)`: cut at each non-overlapping
occurrence of `sep`, scanning left to right. -/
def pySplit (s sep : String) : List String :=
  if sep.data = [] then [s]
  else (pySplitAux sep.data s.data [] (s.data.length + 1)).map String.mk

/-- Translation of Python's `str.startswith(pre)`. -/
def pyStartsWith (s pre : String) : Bool :=
  pre.data.isPrefixOf s.data

/-- Translation of `package_name.replace('-', '_')` (single-character replace). -/
def dashToUnderscore (s : String) : String :=
  String.mk (s.data.map (fun c => if c = '-' then '_' else c))

/-- Translation of `normalize_package_name` (lines 133-138 of the source):
replace `-` by `_` when a hyphen is present, otherwise return the name
unchanged.  Note that it does not change letter case. -/
def normalize_package_name (package_name : String) : String :=
  if package_name.data.contains '-' then dashToUnderscore package_name
  else package_name

/-- The `versions` dict of the source: package name to version string. -/
abbrev VersionMap := List (String × String)

/-- Python `dict` lookup `m.get(k)` on a `VersionMap`. -/
def vget (m : VersionMap) (k : String) : Option String :=
  (m.find? (fun p => p.1 == k)).map (fun p => p.2)

/-- Python `dict` assignment `m[k] = v`: replace the binding if the key is
present, otherwise append a new binding. -/
def dinsert (m : VersionMap) (k v : String) : VersionMap :=
  if m.any (fun p => p.1 == k) then
    m.map (fun p => if p.1 == k then (k, v) else p)
  else m ++ [(k, v)]

/-- The `deps_graph` dict of the source: package name to set of child names. -/
abbrev DepsGraph := List (String × Finset String)

/-- Python `dict` lookup on the dependency graph. -/
def gfind (g : DepsGraph) (k : String) : Option (Finset String) :=
  (g.find? (fun p => p.1 == k)).map (fun p => p.2)

/-- Python `dict` assignment `deps_graph[k] = v`. -/
def gset (g : DepsGraph) (k : String) (v : Finset String) : DepsGraph :=
  if g.any (fun p => p.1 == k) then
    g.map (fun p => if p.1 == k then (k, v) else p)
  else g ++ [(k, v)]

/-- Python `deps_graph[k].add(c)`: add a child to an existing entry. -/
def gadd (g : DepsGraph) (k : String) (c : String) : DepsGraph :=
  g.map (fun p => if p.1 == k then (p.1, insert c p.2) else p)

/-- Python `k in deps_graph`. -/
def mem_graph (g : DepsGraph) (k : String) : Bool :=
  (gfind g k).isSome

/-- The children recorded for a key, empty when the key is absent. -/
def childrenOf (g : DepsGraph) (k : String) : Finset String :=
  (gfind g k).getD ∅

/-- All names occurring in the graph, as keys or as children. -/
def graphNodes (g : DepsGraph) : Finset String :=
  g.foldr (fun p acc => insert p.1 (p.2 ∪ acc)) ∅

mutual

/-- A node of the `pipdeptree --json-tree` output: a `key` (possibly `""` when
the JSON record lacks one, matching `pkg_info.get('key', '')`) and a list of
dependency subtrees. -/
inductive PkgTree where
  | node (key : String) (deps : PkgForest)
deriving DecidableEq

/-- The list of subtrees of a node (the parsed `dependencies` JSON array). -/
inductive PkgForest where
  | nil
  | cons (t : PkgTree) (ts : PkgForest)
deriving DecidableEq

end

/-- The `key` field of a tree node. -/
def PkgTree.key : PkgTree → String
  | .node k _ => k

/-- The `dependencies` field of a tree node. -/
def PkgTree.deps : PkgTree → PkgForest
  | .node _ ds => ds

mutual

/-- Translation of `process_dependencies` (lines 91-102): record an empty
child-set for the node, then for each dependency with a non-empty name add the
lowercased name to the parent's entry and recurse into the child. -/
def process_dependencies (pkg_info : PkgTree) (g : DepsGraph) : DepsGraph :=
  match pkg_info with
  | .node key deps =>
    let pkg_name := pyLower key
    if pkg_name = "" then g
    else process_deps_list pkg_name deps (gset g pkg_name ∅)

/-- The `for dep in pkg_info.get('dependencies', [])` loop of
`process_dependencies`. -/
def process_deps_list (pkg_name : String) (deps : PkgForest) (g : DepsGraph) : DepsGraph :=
  match deps with
  | .nil => g
  | .cons dep rest =>
    let dep_name := pyLower dep.key
    if dep_name = "" then process_deps_list pkg_name rest g
    else process_deps_list pkg_name rest (process_dependencies dep (gadd g pkg_name dep_name))

end

/-- The `for package in tree: process_dependencies(package)` loop of
`get_dependency_tree` (lines 104-106), starting from the empty dict. -/
def build_deps_graph_from (f : PkgForest) (g : DepsGraph) : DepsGraph :=
  match f with
  | .nil => g
  | .cons t ts => build_deps_graph_from ts (process_dependencies t g)

/-- The dependency graph built from the whole tree. -/
def build_deps_graph (tree : PkgForest) : DepsGraph :=
  build_deps_graph_from tree []

/-- Translation of the freeze-output parsing loop of `get_dependency_tree`
(lines 81-86): for each line containing `==`, unpack `name, version` (a line
with more than one `==` raises `ValueError`, modelled as `none`, which the
enclosing `except` turns into empty results), skip versions containing a path
separator, and store `versions[name.strip().lower()] = version.strip()`. -/
def parse_versions_step (versions : VersionMap) (line : String) : Option VersionMap :=
  let parts := pySplit line "=="
  if parts.length = 1 then some versions
  else if parts.length = 2 then
    let name := parts.headD ""
    let version := parts.getD 1 ""
    if version.data.contains '/' ∨ version.data.contains '\\' then some versions
    else some (dinsert versions (pyLower (pyStrip name)) (pyStrip version))
  else none

/-- The whole freeze-parsing loop, failing when any line fails. -/
def parse_versions (freezeLines : List String) : Option VersionMap :=
  freezeLines.foldlM parse_versions_step []

/-- Translation of `get_dependency_tree` (lines 66-117).  `treeData` is the
collaborator's output: `none` models a subprocess failure or malformed JSON
(every exception path returns two empty collections); otherwise it carries the
parsed JSON forest and the freeze lines. -/
def get_dependency_tree (treeData : Option (PkgForest × List String)) :
    VersionMap × DepsGraph :=
  match treeData with
  | none => ([], [])
  | some (tree, freezeLines) =>
    match parse_versions freezeLines with
    | none => ([], [])
    | some versions => (versions, build_deps_graph tree)

/-- Translation of `get_imported_packages` (lines 9-34).  `scan` is the content
of the scratch file written by the scanner collaborator, as a list of lines;
`none` models a failed invocation, which the function downgrades to the empty
set.  Each line is stripped, cut at `==`, and lowercased. -/
def get_imported_packages (scan : Option (List String)) : Finset String :=
  match scan with
  | none => ∅
  | some lines =>
    (lines.map (fun line => pyLower ((pySplit (pyStrip line) "==").headD ""))).toFinset

/-- Translation of `get_package_version` (lines 36-64).  The three collaborator
outputs (`pip show`, `pip freeze`, `pipdeptree --freeze`) are passed as line
lists; `none` models a `CalledProcessError`, which aborts the whole chain with
`"latest"`.  Each strategy scans for its first matching line. -/
def get_package_version (show_out freeze_out tree_out : Option (List String))
    (package_name : String) : String :=
  match show_out with
  | none => "latest"
  | some showLines =>
    match showLines.find? (fun l => pyStartsWith l "Version: ") with
    | some l => pyStrip ((pySplit l "Version: ").getD 1 "")
    | none =>
      match freeze_out with
      | none => "latest"
      | some freezeLines =>
        match freezeLines.find? (fun l => pyStartsWith (pyLower l) (package_name ++ "==")) with
        | some l => pyStrip ((pySplit l "==").getD 1 "")
        | none =>
          match tree_out with
          | none => "latest"
          | some treeLines =>
            match treeLines.find? (fun l => pyStartsWith (pyLower l) (package_name ++ "==")) with
            | some l => pyStrip ((pySplit l "==").getD 1 "")
            | none => "latest"

/-- The loop state of `get_all_dependencies` (lines 119-131): the accumulated
`all_deps` set and the `to_process` work-list (a Python set). -/
structure ClosureState where
  all_deps : Finset String
  to_process : Finset String
deriving DecidableEq

/-- One iteration body of the `while to_process` loop, popping `dep`: if the
graph has an entry for `dep`, the children not yet in `all_deps` are added to
both sets; either way `dep` leaves the work-list. -/
def stepState (g : DepsGraph) (s : ClosureState) (dep : String) : ClosureState :=
  if mem_graph g dep then
    let new_deps := childrenOf g dep \ s.all_deps
    { all_deps := s.all_deps ∪ new_deps,
      to_process := (s.to_process.erase dep) ∪ new_deps }
  else
    { all_deps := s.all_deps, to_process := s.to_process.erase dep }

/-- The loop of `get_all_dependencies` as a nondeterministic step relation:
Python's `set.pop()` removes an arbitrary element, so a step may process any
member of the work-list. -/
inductive closureStep (g : DepsGraph) : ClosureState → ClosureState → Prop where
  | pop (s : ClosureState) (dep : String) (hdep : dep ∈ s.to_process) :
      closureStep g s (stepState g s dep)

/-- A computable choice of element from the work-list, instantiating Python's
arbitrary `set.pop()` with one concrete order. -/
def pickOne (s : Finset String) : Option String :=
  (sortedNames s).head?

/-- A bound on the number of remaining loop iterations: twice the number of
graph names not yet collected, plus the size of the work-list. -/
def stateMeasure (g : DepsGraph) (s : ClosureState) : Nat :=
  2 * (((graphNodes g ∪ s.all_deps ∪ s.to_process) \ s.all_deps).card) + s.to_process.card

/-- The `while to_process:` loop, run for at most `fuel` iterations. -/
def closureLoop (g : DepsGraph) : Nat → ClosureState → ClosureState
  | 0, s => s
  | fuel + 1, s =>
    match pickOne s.to_process with
    | none => s
    | some dep => closureLoop g fuel (stepState g s dep)

/-- Translation of `get_all_dependencies` (lines 119-131): start with
`all_deps = to_process = direct_deps` and run the loop to completion
(`stateMeasure` iterations always suffice, see `closureLoop_to_process_empty`). -/
def get_all_dependencies (direct_deps : Finset String) (deps_graph : DepsGraph) : Finset String :=
  (closureLoop deps_graph
    (stateMeasure deps_graph { all_deps := direct_deps, to_process := direct_deps })
    { all_deps := direct_deps, to_process := direct_deps }).all_deps

/-- The edge relation of the dependency graph: `b` is a recorded child of `a`. -/
def edgeRel (g : DepsGraph) (a b : String) : Prop :=
  b ∈ childrenOf g a

/-- A name is reachable when some direct dependency reaches it via zero or more
graph edges. -/
def reachableName (g : DepsGraph) (direct : Finset String) (p : String) : Prop :=
  ∃ d ∈ direct, Relation.ReflTransGen (edgeRel g) d p

/-- The loop invariant of `get_all_dependencies`: the direct set is contained
in `all_deps`, the work-list is contained in `all_deps`, every collected name
no longer on the work-list already has all its children collected, and every
collected name is reachable from the direct set. -/
structure ClosureInv (g : DepsGraph) (direct : Finset String) (s : ClosureState) : Prop where
  direct_sub : direct ⊆ s.all_deps
  tp_sub : s.to_process ⊆ s.all_deps
  processed_closed : ∀ p ∈ s.all_deps, p ∉ s.to_process → childrenOf g p ⊆ s.all_deps
  all_reachable : ∀ p ∈ s.all_deps, reachableName g direct p

/-- Version lookup of the manifest writer (lines 174-175 and 185-186):
normalize the name, consult the version map, and fall back to the resolver on a
missing or empty entry (Python's `versions.get(n, '') or get_package_version(n)`). -/
def lookup_version (versions : VersionMap) (resolver : String → String)
    (package : String) : String :=
  let normalized_name := normalize_package_name package
  match vget versions normalized_name with
  | some v => if v = "" then resolver normalized_name else v
  | none => resolver normalized_name

/-- One manifest entry (lines 176-180 and 187-191): `name==version` when a
non-empty version other than `"latest"` was found, otherwise the bare name. -/
def requirement_line (versions : VersionMap) (resolver : String → String)
    (package : String) : String :=
  let version := lookup_version versions resolver package
  if version ≠ "" ∧ version ≠ "latest" then package ++ "==" ++ version else package

/-- The entry lines of one manifest section, in the given name order. -/
def section_lines (names : List String) (versions : VersionMap)
    (resolver : String → String) : List String :=
  names.map (requirement_line versions resolver)

/-- The manifest produced by `generate_requirements` (lines 171-191), as a list
of lines: the direct-section header, the sorted direct entries, and, when the
sub-dependency set is non-empty, a blank line, the sub-section header, and the
sorted sub-dependency entries. -/
def manifest_lines (direct_deps subdeps : Finset String) (versions : VersionMap)
    (resolver : String → String) : List String :=
  "# 直接依赖" :: section_lines (sortedNames direct_deps) versions resolver
    ++ (if subdeps = ∅ then []
        else "" :: "# 子依赖" ::
          section_lines (sortedNames subdeps) versions resolver)

/-- Translation of `generate_requirements` (lines 140-193).  The collaborator
outputs are explicit parameters; the returned value is `none` when the run ends
without writing a file (the two error returns at lines 145-147 and 156-158) and
`some lines` when the manifest with these lines is written. -/
def generate_requirements (scan : Option (List String))
    (treeData : Option (PkgForest × List String))
    (show_out : String → Option (List String))
    (freeze_out tree_out : Option (List String)) : Option (List String) :=
  let direct_deps := get_imported_packages scan
  if direct_deps = ∅ then none
  else
    let vg := get_dependency_tree treeData
    if vg.1 = [] ∨ vg.2 = [] then none
    else
      let all_deps := get_all_dependencies direct_deps vg.2
      let subdeps := all_deps \ direct_deps
      some (manifest_lines direct_deps subdeps vg.1
        (fun p => get_package_version (show_out p) freeze_out tree_out p))

/-- Modelled from the spec: the repository's second near-identical variant (not
included under `src/`) adds a CLI flag that disables sub-dependency expansion.
Per the spec, in that direct-only mode the run keeps the same fatal-error
guards and writes only the direct-dependency section, never a sub-dependency
header, even if the graph has children for the direct packages. -/
def generate_requirements_direct_only (scan : Option (List String))
    (treeData : Option (PkgForest × List String))
    (show_out : String → Option (List String))
    (freeze_out tree_out : Option (List String)) : Option (List String) :=
  let direct_deps := get_imported_packages scan
  if direct_deps = ∅ then none
  else
    let vg := get_dependency_tree treeData
    if vg.1 = [] ∨ vg.2 = [] then none
    else
      some ("# 直接依赖" ::
        section_lines (sortedNames direct_deps) vg.1
          (fun p => get_package_version (show_out p) freeze_out tree_out p))

/-- The condition under which every fallback strategy of `get_package_version`
fails for `p`: each collaborator output, when its invocation did not already
fail, contains no matching line. -/
def all_strategies_fail (show_out freeze_out tree_out : Option (List String))
    (p : String) : Prop :=
  (∀ ls, show_out = some ls → ls.find? (fun l => pyStartsWith l "Version: ") = none) ∧
  (∀ ls, freeze_out = some ls →
    ls.find? (fun l => pyStartsWith (pyLower l) (p ++ "==")) = none) ∧
  (∀ ls, tree_out = some ls →
    ls.find? (fun l => pyStartsWith (pyLower l) (p ++ "==")) = none)

mutual

/-- The set of graph keys whose entries `process_dependencies` may write when
processing this node: its own (non-empty, lowercased) key together with the
keys written while recursing into its named dependencies. -/
def treeTouched : PkgTree → Finset String
  | .node key deps =>
    if pyLower key = "" then ∅ else insert (pyLower key) (forestTouched deps)

/-- Keys written while processing each tree of a forest (recursion only enters
a dependency whose lowercased key is non-empty, matching the source). -/
def forestTouched : PkgForest → Finset String
  | .nil => ∅
  | .cons t ts =>
    (if pyLower t.key = "" then ∅ else treeTouched t) ∪ forestTouched ts

end

/-- The direct child names a visit records for a node: the lowercased keys of
its dependencies, skipping empty ones. -/
def forestDirectNames : PkgForest → Finset String
  | .nil => ∅
  | .cons t ts =>
    (if pyLower t.key = "" then ∅ else {pyLower t.key}) ∪ forestDirectNames ts

/-- A two-node cyclic graph used as a concrete test fixture. -/
def cycleGraph : DepsGraph := [("a", {"b"}), ("b", {"a"})]

/-- A one-edge graph used as a concrete test fixture. -/
def abGraph : DepsGraph := [("a", {"b"})]

/-- A version map with a single underscore-spelled key, used as a fixture. -/
def vmapFooBar : VersionMap := [("foo_bar", "1.0")]

/-- A tree in which the package `a` occurs twice: first with child `b`, then
with no children. -/
def doubleVisitForest : PkgForest :=
  PkgForest.cons (PkgTree.node "a" (PkgForest.cons (PkgTree.node "b" PkgForest.nil) PkgForest.nil))
    (PkgForest.cons (PkgTree.node "a" PkgForest.nil) PkgForest.nil)

/-- Only the first visit of `a`, for comparison. -/
def singleVisitForest : PkgForest :=
  PkgForest.cons (PkgTree.node "a" (PkgForest.cons (PkgTree.node "b" PkgForest.nil) PkgForest.nil))
    PkgForest.nil


theorem toNat_pyLowerChar_valid {n : Nat} (h : n.isValidChar) :
    (Char.ofNat n).toNat = n := by
  rw [Char.ofNat, dif_pos h]
  rfl

theorem pyLowerChar_idem (c : Char) : pyLowerChar (pyLowerChar c) = pyLowerChar c := by
  unfold pyLowerChar
  by_cases h : 65 ≤ c.toNat ∧ c.toNat ≤ 90
  · rw [if_pos h]
    have hv : (c.toNat + 32).isValidChar := Or.inl (by omega)
    have ht : (Char.ofNat (c.toNat + 32)).toNat = c.toNat + 32 :=
      toNat_pyLowerChar_valid hv
    rw [ht, if_neg (by omega)]
  · rw [if_neg h, if_neg h]

theorem pyLower_idem (s : String) : pyLower (pyLower s) = pyLower s := by
  unfold pyLower
  simp [List.map_map, Function.comp_def, pyLowerChar_idem]

theorem pyLower_is_lowercase (s : String) : is_lowercase (pyLower s) :=
  pyLower_idem s


theorem map_dash_eq_self {l : List Char} (h : ('-' : Char) ∉ l) :
    l.map (fun c => if c = '-' then '_' else c) = l := by
  induction l with
  | nil => rfl
  | cons a t ih =>
    simp only [List.mem_cons, not_or] at h
    have hne : a ≠ '-' := fun e => h.1 e.symm
    simp [List.map_cons, if_neg hne, ih h.2]

theorem normalize_eq_dashToUnderscore (s : String) :
    normalize_package_name s = dashToUnderscore s := by
  unfold normalize_package_name
  by_cases h : s.data.contains '-'
  · rw [if_pos h]
  · rw [if_neg h]
    have h' : ('-' : Char) ∉ s.data := by simpa using h
    cases s with
    | mk l =>
      exact congrArg String.mk (map_dash_eq_self h').symm

theorem gfind_gset_self (g : DepsGraph) (k : String) (v : Finset String) :
    gfind (gset g k v) k = some v := by
  unfold gset
  by_cases h : g.any (fun p => p.1 == k)
  · rw [if_pos h]
    unfold gfind
    induction g with
    | nil => simp at h
    | cons a t ih =>
      by_cases hae : a.1 = k
      · have hb : (a.1 == k) = true := beq_iff_eq.mpr hae
        simp [List.find?, hb]
      · have hb : (a.1 == k) = false := by simp [hae]
        have hmem : t.any (fun p => p.1 == k) = true := by
          rcases List.any_eq_true.mp h with ⟨x, hx, hpx⟩
          rcases List.mem_cons.mp hx with rfl | hx'
          · exact absurd (beq_iff_eq.mp hpx) hae
          · exact List.any_eq_true.mpr ⟨x, hx', hpx⟩
        simpa [List.find?, hb] using ih hmem
  · rw [if_neg h]
    unfold gfind
    rw [List.find?_append]
    have hnone : g.find? (fun p => p.1 == k) = none := by
      rw [List.find?_eq_none]
      intro x hx
      exact (List.any_eq_false.mp (Bool.of_not_eq_true h)) x hx
    rw [hnone]
    simp [List.find?]

theorem gfind_gset_ne (g : DepsGraph) (k k' : String) (v : Finset String)
    (h : k' ≠ k) :
    gfind (gset g k v) k' = gfind g k' := by
  have h' : k ≠ k' := fun e => h e.symm
  have hkk : ((k : String) == k') = false := by simp [h']
  unfold gset gfind
  by_cases hmem : g.any (fun p => p.1 == k)
  · rw [if_pos hmem]
    clear hmem
    induction g with
    | nil => rfl
    | cons a t ih =>
      by_cases hae : a.1 = k
      · have hb : (a.1 == k) = true := beq_iff_eq.mpr hae
        have hb2 : (a.1 == k') = false := by simp [hae, h']
        simpa [List.find?, hb, hb2, hkk] using ih
      · have hb : (a.1 == k) = false := by simp [hae]
        by_cases hak' : a.1 = k'
        · have hb2 : (a.1 == k') = true := beq_iff_eq.mpr hak'
          simp [List.find?, hb, hb2]
        · have hb2 : (a.1 == k') = false := by simp [hak']
          simpa [List.find?, hb, hb2] using ih
  · rw [if_neg hmem]
    rw [List.find?_append]
    have hlast : List.find? (fun p => p.1 == k') [(k, v)] = none := by
      simp [List.find?, hkk]
    rw [hlast]
    simp

theorem gfind_gadd_self (g : DepsGraph) (k c : String) (S : Finset String)
    (h : gfind g k = some S) :
    gfind (gadd g k c) k = some (insert c S) := by
  unfold gfind gadd
  unfold gfind at h
  induction g with
  | nil => simp at h
  | cons a t ih =>
    by_cases hae : a.1 = k
    · have hb : (a.1 == k) = true := beq_iff_eq.mpr hae
      simp only [List.find?, hb, Option.map_some] at h
      have h2 : a.2 = S := by simpa using h
      simp [List.find?, hb, h2]
    · have hb : (a.1 == k) = false := by simp [hae]
      simp only [List.find?, hb] at h
      simpa [List.find?, hb] using ih h

theorem gfind_gadd_ne (g : DepsGraph) (k k' c : String) (h : k' ≠ k) :
    gfind (gadd g k c) k' = gfind g k' := by
  have h' : k ≠ k' := fun e => h e.symm
  unfold gfind gadd
  induction g with
  | nil => rfl
  | cons a t ih =>
    by_cases hae : a.1 = k
    · have hb : (a.1 == k) = true := beq_iff_eq.mpr hae
      have hb2 : (a.1 == k') = false := by simp [hae, h']
      simpa [List.find?, hb, hb2] using ih
    · have hb : (a.1 == k) = false := by simp [hae]
      by_cases hak' : a.1 = k'
      · have hb2 : (a.1 == k') = true := beq_iff_eq.mpr hak'
        simp [List.find?, hb, hb2]
      · have hb2 : (a.1 == k') = false := by simp [hak']
        simpa [List.find?, hb, hb2] using ih

theorem childrenOf_subset_graphNodes (g : DepsGraph) (k : String) :
    childrenOf g k ⊆ graphNodes g := by
  unfold childrenOf gfind graphNodes
  induction g with
  | nil => simp
  | cons a t ih =>
    by_cases hae : a.1 = k
    · have hb : (a.1 == k) = true := beq_iff_eq.mpr hae
      intro x hx
      simp only [List.find?, hb, Option.map_some, Option.getD_some] at hx
      simp only [List.foldr_cons, Finset.mem_insert, Finset.mem_union]
      exact Or.inr (Or.inl hx)
    · have hb : (a.1 == k) = false := by simp [hae]
      intro x hx
      simp only [List.find?, hb] at hx
      simp only [List.foldr_cons, Finset.mem_insert, Finset.mem_union]
      exact Or.inr (Or.inr (ih hx))

theorem mem_graph_false_children {g : DepsGraph} {dep : String}
    (h : mem_graph g dep = false) : childrenOf g dep = ∅ := by
  unfold mem_graph at h
  unfold childrenOf
  cases hf : gfind g dep with
  | none => rfl
  | some v => rw [hf] at h; simp at h

theorem stepState_eq (g : DepsGraph) (s : ClosureState) (dep : String) :
    stepState g s dep =
      { all_deps := s.all_deps ∪ (childrenOf g dep \ s.all_deps),
        to_process := (s.to_process.erase dep) ∪ (childrenOf g dep \ s.all_deps) } := by
  unfold stepState
  by_cases h : mem_graph g dep = true
  · rw [if_pos h]
  · rw [if_neg h]
    have hc : childrenOf g dep = ∅ :=
      mem_graph_false_children (Bool.not_eq_true _ ▸ Bool.of_not_eq_true h)
    simp [hc]

theorem stepState_measure_lt (g : DepsGraph) (s : ClosureState) (dep : String)
    (hdep : dep ∈ s.to_process) :
    stateMeasure g (stepState g s dep) < stateMeasure g s := by
  rw [stepState_eq]
  unfold stateMeasure
  simp only
  have hNG : childrenOf g dep \ s.all_deps ⊆ graphNodes g :=
    Finset.Subset.trans (Finset.sdiff_subset) (childrenOf_subset_graphNodes g dep)
  have hNsub : childrenOf g dep \ s.all_deps ⊆
      (graphNodes g ∪ s.all_deps ∪ s.to_process) \ s.all_deps := by
    intro x hx
    rcases Finset.mem_sdiff.mp hx with ⟨hx1, hx2⟩
    exact Finset.mem_sdiff.mpr
      ⟨Finset.mem_union.mpr (Or.inl (Finset.mem_union.mpr (Or.inl (hNG hx)))), hx2⟩
  have hsub :
      ((graphNodes g ∪ (s.all_deps ∪ childrenOf g dep \ s.all_deps)
          ∪ (s.to_process.erase dep ∪ childrenOf g dep \ s.all_deps))
        \ (s.all_deps ∪ childrenOf g dep \ s.all_deps)) ⊆
      ((graphNodes g ∪ s.all_deps ∪ s.to_process) \ s.all_deps)
        \ (childrenOf g dep \ s.all_deps) := by
    intro x hx
    rcases Finset.mem_sdiff.mp hx with ⟨hx1, hx2⟩
    have hxA : x ∉ s.all_deps := fun hA => hx2 (Finset.mem_union.mpr (Or.inl hA))
    have hxN : x ∉ childrenOf g dep \ s.all_deps :=
      fun hN => hx2 (Finset.mem_union.mpr (Or.inr hN))
    have hxU : x ∈ graphNodes g ∪ s.all_deps ∪ s.to_process := by
      rcases Finset.mem_union.mp hx1 with hx3 | hx3
      · rcases Finset.mem_union.mp hx3 with hx4 | hx4
        · exact Finset.mem_union.mpr (Or.inl (Finset.mem_union.mpr (Or.inl hx4)))
        · rcases Finset.mem_union.mp hx4 with hx5 | hx5
          · exact Finset.mem_union.mpr (Or.inl (Finset.mem_union.mpr (Or.inr hx5)))
          · exact Finset.mem_union.mpr (Or.inl (Finset.mem_union.mpr (Or.inl (hNG hx5))))
      · rcases Finset.mem_union.mp hx3 with hx4 | hx4
        · exact Finset.mem_union.mpr (Or.inr (Finset.mem_of_mem_erase hx4))
        · exact Finset.mem_union.mpr (Or.inl (Finset.mem_union.mpr (Or.inl (hNG hx4))))
    exact Finset.mem_sdiff.mpr ⟨Finset.mem_sdiff.mpr ⟨hxU, hxA⟩, hxN⟩
  have h1 := Finset.card_le_card hsub
  have h2 := Finset.card_sdiff hNsub
  have h3 := Finset.card_le_card hNsub
  have h4 := Finset.card_union_le (s.to_process.erase dep) (childrenOf g dep \ s.all_deps)
  have h5 := Finset.card_erase_of_mem hdep
  have h6 : 1 ≤ s.to_process.card := Finset.card_pos.mpr ⟨dep, hdep⟩
  omega

theorem closureStep_measure_lt (g : DepsGraph) {s t : ClosureState}
    (h : closureStep g s t) : stateMeasure g t < stateMeasure g s := by
  cases h with
  | pop dep hdep => exact stepState_measure_lt g s dep hdep

theorem closureStep_wf (g : DepsGraph) :
    WellFounded (fun t s : ClosureState => closureStep g s t) :=
  Subrelation.wf (fun h => closureStep_measure_lt g h)
    (InvImage.wf (stateMeasure g) Nat.lt_wfRel.wf)

theorem pickOne_none {s : Finset String} (h : pickOne s = none) : s = ∅ := by
  unfold pickOne at h
  exact sortedNames_eq_nil (List.head?_eq_none_iff.mp h)

theorem pickOne_mem {s : Finset String} {d : String} (h : pickOne s = some d) :
    d ∈ s := by
  unfold pickOne at h
  exact mem_sortedNames.mp (List.mem_of_mem_head? (by rw [h]; rfl))

theorem closureLoop_to_process_empty (g : DepsGraph) :
    ∀ (n : Nat) (s : ClosureState), stateMeasure g s ≤ n →
      (closureLoop g n s).to_process = ∅ := by
  intro n
  induction n with
  | zero =>
    intro s h
    have hc : s.to_process.card = 0 := by
      unfold stateMeasure at h
      omega
    simpa [closureLoop] using Finset.card_eq_zero.mp hc
  | succ n ih =>
    intro s h
    unfold closureLoop
    cases hp : pickOne s.to_process with
    | none => exact pickOne_none hp
    | some dep =>
      apply ih
      have := stepState_measure_lt g s dep (pickOne_mem hp)
      omega

theorem closureLoop_reachable (g : DepsGraph) :
    ∀ (n : Nat) (s : ClosureState),
      Relation.ReflTransGen (closureStep g) s (closureLoop g n s) := by
  intro n
  induction n with
  | zero =>
    intro s
    exact Relation.ReflTransGen.refl
  | succ n ih =>
    intro s
    unfold closureLoop
    cases hp : pickOne s.to_process with
    | none => exact Relation.ReflTransGen.refl
    | some dep =>
      exact Relation.ReflTransGen.head
        (closureStep.pop s dep (pickOne_mem hp)) (ih (stepState g s dep))

theorem closureInv_init (g : DepsGraph) (direct : Finset String) :
    ClosureInv g direct { all_deps := direct, to_process := direct } := by
  refine ⟨Finset.Subset.refl _, Finset.Subset.refl _, ?_, ?_⟩
  · intro p hp hnp
    exact absurd hp hnp
  · intro p hp
    exact ⟨p, hp, Relation.ReflTransGen.refl⟩

theorem closureInv_step (g : DepsGraph) (direct : Finset String) {s t : ClosureState}
    (hstep : closureStep g s t) (hinv : ClosureInv g direct s) :
    ClosureInv g direct t := by
  cases hstep with
  | pop dep hdep =>
    rw [stepState_eq]
    refine ⟨?_, ?_, ?_, ?_⟩
    · exact hinv.direct_sub.trans Finset.subset_union_left
    · apply Finset.union_subset
      · exact ((Finset.erase_subset _ _).trans hinv.tp_sub).trans Finset.subset_union_left
      · exact Finset.subset_union_right
    · intro p hp hnp
      have hpN : p ∉ childrenOf g dep \ s.all_deps :=
        fun hN => hnp (Finset.mem_union.mpr (Or.inr hN))
      have hpe : p ∉ s.to_process.erase dep :=
        fun he => hnp (Finset.mem_union.mpr (Or.inl he))
      rcases Finset.mem_union.mp hp with hpA | hpN'
      · by_cases hpd : p = dep
        · subst hpd
          intro x hx
          by_cases hxA : x ∈ s.all_deps
          · exact Finset.mem_union.mpr (Or.inl hxA)
          · exact Finset.mem_union.mpr (Or.inr (Finset.mem_sdiff.mpr ⟨hx, hxA⟩))
        · have hpT : p ∉ s.to_process :=
            fun hT => hpe (Finset.mem_erase.mpr ⟨hpd, hT⟩)
          exact (hinv.processed_closed p hpA hpT).trans Finset.subset_union_left
      · exact absurd hpN' hpN
    · intro p hp
      rcases Finset.mem_union.mp hp with hpA | hpN
      · exact hinv.all_reachable p hpA
      · have hdA : dep ∈ s.all_deps := hinv.tp_sub hdep
        rcases hinv.all_reachable dep hdA with ⟨d, hd, hchain⟩
        exact ⟨d, hd, hchain.tail ((Finset.mem_sdiff.mp hpN).1)⟩

theorem closureInv_reach (g : DepsGraph) (direct : Finset String) {s t : ClosureState}
    (h : Relation.ReflTransGen (closureStep g) s t) (hinv : ClosureInv g direct s) :
    ClosureInv g direct t := by
  induction h with
  | refl => exact hinv
  | tail _ h2 ih => exact closureInv_step g direct h2 ih

theorem terminal_all_deps_iff (g : DepsGraph) (direct : Finset String) (s : ClosureState)
    (hr : Relation.ReflTransGen (closureStep g)
      { all_deps := direct, to_process := direct } s)
    (ht : s.to_process = ∅) (p : String) :
    p ∈ s.all_deps ↔ reachableName g direct p := by
  have hinv := closureInv_reach g direct hr (closureInv_init g direct)
  constructor
  · exact hinv.all_reachable p
  · rintro ⟨d, hd, hchain⟩
    induction hchain with
    | refl => exact hinv.direct_sub hd
    | tail _ h2 ih =>
      exact hinv.processed_closed _ ih
        (by rw [ht]; exact Finset.not_mem_empty _) h2

mutual

theorem gfind_process_dependencies_untouched (t : PkgTree) (g : DepsGraph) (k : String)
    (hk : k ∉ treeTouched t) :
    gfind (process_dependencies t g) k = gfind g k := by
  cases t with
  | node key deps =>
    unfold process_dependencies
    by_cases h : pyLower key = ""
    · rw [if_pos h]
    · rw [if_neg h]
      unfold treeTouched at hk
      rw [if_neg h] at hk
      simp only [Finset.mem_insert, not_or] at hk
      rw [gfind_process_deps_list_untouched (pyLower key) deps _ k hk.1 hk.2]
      exact gfind_gset_ne g (pyLower key) k ∅ hk.1

theorem gfind_process_deps_list_untouched (pkg : String) (f : PkgForest) (g : DepsGraph)
    (k : String) (hpkg : k ≠ pkg) (hk : k ∉ forestTouched f) :
    gfind (process_deps_list pkg f g) k = gfind g k := by
  cases f with
  | nil => rfl
  | cons dep rest =>
    unfold process_deps_list
    unfold forestTouched at hk
    by_cases h : pyLower dep.key = ""
    · rw [if_pos h]
      rw [if_pos h] at hk
      simp only [Finset.empty_union] at hk
      exact gfind_process_deps_list_untouched pkg rest g k hpkg hk
    · rw [if_neg h]
      rw [if_neg h] at hk
      simp only [Finset.mem_union, not_or] at hk
      rw [gfind_process_deps_list_untouched pkg rest _ k hpkg hk.2]
      rw [gfind_process_dependencies_untouched dep _ k hk.1]
      exact gfind_gadd_ne g pkg k (pyLower dep.key) hpkg

end

theorem gfind_process_deps_list_entry (pkg : String) (f : PkgForest) (g : DepsGraph)
    (S : Finset String) (hS : gfind g pkg = some S) (hk : pkg ∉ forestTouched f) :
    gfind (process_deps_list pkg f g) pkg = some (S ∪ forestDirectNames f) := by
  cases f with
  | nil =>
    unfold process_deps_list forestDirectNames
    simpa using hS
  | cons dep rest =>
    unfold process_deps_list forestDirectNames
    unfold forestTouched at hk
    by_cases h : pyLower dep.key = ""
    · rw [if_pos h]
      rw [if_pos h] at hk ⊢
      simp only [Finset.empty_union] at hk ⊢
      exact gfind_process_deps_list_entry pkg rest g S hS hk
    · rw [if_neg h]
      rw [if_neg h] at hk ⊢
      simp only [Finset.mem_union, not_or] at hk
      have h1 : gfind (gadd g pkg (pyLower dep.key)) pkg
          = some (insert (pyLower dep.key) S) :=
        gfind_gadd_self g pkg _ S hS
      have h2 : gfind (process_dependencies dep (gadd g pkg (pyLower dep.key))) pkg
          = some (insert (pyLower dep.key) S) := by
        rw [gfind_process_dependencies_untouched dep _ pkg hk.1]
        exact h1
      rw [gfind_process_deps_list_entry pkg rest _ _ h2 hk.2]
      congr 1
      ext x
      simp only [Finset.mem_insert, Finset.mem_union, Finset.mem_singleton]
      tauto

theorem mem_gset {g : DepsGraph} {k : String} {v : Finset String}
    {kv : String × Finset String} (h : kv ∈ gset g k v) : kv ∈ g ∨ kv = (k, v) := by
  unfold gset at h
  by_cases hmem : g.any (fun p => p.1 == k)
  · rw [if_pos hmem] at h
    rcases List.mem_map.mp h with ⟨p, hp, he⟩
    by_cases hpk : p.1 = k
    · right
      rw [← he]
      simp [hpk]
    · left
      rw [← he]
      simpa [hpk] using hp
  · rw [if_neg hmem] at h
    rcases List.mem_append.mp h with h | h
    · exact Or.inl h
    · exact Or.inr (by simpa using h)

theorem mem_gadd {g : DepsGraph} {k c : String} {kv : String × Finset String}
    (h : kv ∈ gadd g k c) :
    ∃ p, p ∈ g ∧ (kv = p ∨ kv = (p.1, insert c p.2)) := by
  unfold gadd at h
  rcases List.mem_map.mp h with ⟨p, hp, he⟩
  refine ⟨p, hp, ?_⟩
  by_cases hpk : p.1 = k
  · right
    rw [← he]
    simp [hpk]
  · left
    rw [← he]
    simp [hpk]

theorem mem_dinsert {m : VersionMap} {k v : String} {kv : String × String}
    (h : kv ∈ dinsert m k v) : kv ∈ m ∨ kv = (k, v) := by
  unfold dinsert at h
  by_cases hmem : m.any (fun p => p.1 == k)
  · rw [if_pos hmem] at h
    rcases List.mem_map.mp h with ⟨p, hp, he⟩
    by_cases hpk : p.1 = k
    · right
      rw [← he]
      simp [hpk]
    · left
      rw [← he]
      simpa [hpk] using hp
  · rw [if_neg hmem] at h
    rcases List.mem_append.mp h with h | h
    · exact Or.inl h
    · exact Or.inr (by simpa using h)

mutual

theorem process_dependencies_lower (t : PkgTree) (g : DepsGraph)
    (hg : ∀ kv ∈ g, is_lowercase kv.1 ∧ ∀ c ∈ kv.2, is_lowercase c) :
    ∀ kv ∈ process_dependencies t g, is_lowercase kv.1 ∧ ∀ c ∈ kv.2, is_lowercase c := by
  cases t with
  | node key deps =>
    unfold process_dependencies
    by_cases h : pyLower key = ""
    · rw [if_pos h]
      exact hg
    · rw [if_neg h]
      apply process_deps_list_lower
      intro kv hkv
      rcases mem_gset hkv with hkv | hkv
      · exact hg kv hkv
      · rw [hkv]
        exact ⟨pyLower_is_lowercase key, fun c hc => absurd hc (Finset.not_mem_empty c)⟩

theorem process_deps_list_lower (pkg : String) (f : PkgForest) (g : DepsGraph)
    (hg : ∀ kv ∈ g, is_lowercase kv.1 ∧ ∀ c ∈ kv.2, is_lowercase c) :
    ∀ kv ∈ process_deps_list pkg f g, is_lowercase kv.1 ∧ ∀ c ∈ kv.2, is_lowercase c := by
  cases f with
  | nil => exact hg
  | cons dep rest =>
    unfold process_deps_list
    by_cases h : pyLower dep.key = ""
    · rw [if_pos h]
      exact process_deps_list_lower pkg rest g hg
    · rw [if_neg h]
      apply process_deps_list_lower
      apply process_dependencies_lower
      intro kv hkv
      rcases mem_gadd hkv with ⟨p, hp, he | he⟩
      · rw [he]
        exact hg p hp
      · rw [he]
        refine ⟨(hg p hp).1, fun c hc => ?_⟩
        rcases Finset.mem_insert.mp hc with rfl | hc
        · exact pyLower_is_lowercase dep.key
        · exact (hg p hp).2 c hc

end

theorem build_deps_graph_from_lower (f : PkgForest) (g : DepsGraph)
    (hg : ∀ kv ∈ g, is_lowercase kv.1 ∧ ∀ c ∈ kv.2, is_lowercase c) :
    ∀ kv ∈ build_deps_graph_from f g, is_lowercase kv.1 ∧ ∀ c ∈ kv.2, is_lowercase c := by
  cases f with
  | nil => exact hg
  | cons t ts =>
    exact build_deps_graph_from_lower ts _ (process_dependencies_lower t g hg)

theorem parse_versions_step_lower {acc : VersionMap} {line : String} {vm : VersionMap}
    (h : parse_versions_step acc line = some vm)
    (hacc : ∀ kv ∈ acc, is_lowercase kv.1) :
    ∀ kv ∈ vm, is_lowercase kv.1 := by
  unfold parse_versions_step at h
  by_cases h1 : (pySplit line "==").length = 1
  · rw [if_pos h1] at h
    cases h
    exact hacc
  · rw [if_neg h1] at h
    by_cases h2 : (pySplit line "==").length = 2
    · rw [if_pos h2] at h
      by_cases h3 : (((pySplit line "==").getD 1 "").data.contains '/' = true)
          ∨ (((pySplit line "==").getD 1 "").data.contains '\\' = true)
      · rw [if_pos h3] at h
        cases h
        exact hacc
      · rw [if_neg h3] at h
        cases h
        intro kv hkv
        rcases mem_dinsert hkv with hkv | hkv
        · exact hacc kv hkv
        · rw [hkv]
          exact pyLower_is_lowercase _
    · rw [if_neg h2] at h
      cases h

theorem parse_versions_foldlM_lower :
    ∀ (lines : List String) (acc vm : VersionMap),
      (∀ kv ∈ acc, is_lowercase kv.1) →
      List.foldlM parse_versions_step acc lines = some vm →
      ∀ kv ∈ vm, is_lowercase kv.1 := by
  intro lines
  induction lines with
  | nil =>
    intro acc vm h heq
    cases heq
    exact h
  | cons l ls ih =>
    intro acc vm h hfold
    rw [List.foldlM_cons] at hfold
    cases hstep : parse_versions_step acc l with
    | none =>
      rw [hstep] at hfold
      cases hfold
    | some acc' =>
      rw [hstep] at hfold
      exact ih acc' vm (parse_versions_step_lower hstep h) hfold

theorem get_package_version_all_fail (show_out freeze_out tree_out : Option (List String))
    (p : String) (h : all_strategies_fail show_out freeze_out tree_out p) :
    get_package_version show_out freeze_out tree_out p = "latest" := by
  obtain ⟨h1, h2, h3⟩ := h
  unfold get_package_version
  cases show_out with
  | none => rfl
  | some ls =>
    dsimp only
    rw [h1 ls rfl]
    cases freeze_out with
    | none => rfl
    | some fs =>
      dsimp only
      rw [h2 fs rfl]
      cases tree_out with
      | none => rfl
      | some ts =>
        dsimp only
        rw [h3 ts rfl]

theorem requirement_line_cases (versions : VersionMap) (resolver : String → String)
    (n : String) :
    requirement_line versions resolver n = n ∨
    ∃ v, v ≠ "" ∧ v ≠ "latest" ∧ v = lookup_version versions resolver n ∧
      requirement_line versions resolver n = n ++ "==" ++ v := by
  unfold requirement_line
  by_cases h : lookup_version versions resolver n ≠ ""
      ∧ lookup_version versions resolver n ≠ "latest"
  · right
    exact ⟨_, h.1, h.2, rfl, by rw [if_pos h]⟩
  · left
    rw [if_neg h]

theorem section_lines_shape (names : List String) (versions : VersionMap)
    (resolver : String → String) :
    ∀ l ∈ section_lines names versions resolver,
      (∃ n ∈ names, l = n) ∨
      (∃ n ∈ names, ∃ v, v ≠ "" ∧ v ≠ "latest" ∧
        v = lookup_version versions resolver n ∧ l = n ++ "==" ++ v) := by
  intro l hl
  rcases List.mem_map.mp hl with ⟨n, hn, he⟩
  rcases requirement_line_cases versions resolver n with hc | ⟨v, hv1, hv2, hv3, hc⟩
  · exact Or.inl ⟨n, hn, he.symm.trans hc⟩
  · exact Or.inr ⟨n, hn, v, hv1, hv2, hv3, he.symm.trans hc⟩

theorem requirement_line_eq_sub_header {versions : VersionMap}
    {resolver : String → String} {n : String}
    (h : requirement_line versions resolver n = "# 子依赖") : n = "# 子依赖" := by
  rcases requirement_line_cases versions resolver n with hc | ⟨v, _, _, _, hc⟩
  · exact (hc.symm.trans h)
  · exfalso
    have he : n ++ "==" ++ v = "# 子依赖" := hc.symm.trans h
    have hd := congrArg String.data he
    rw [String.data_append, String.data_append] at hd
    have hm : ('=' : Char) ∈ n.data ++ "==".data ++ v.data :=
      List.mem_append.mpr (Or.inl (List.mem_append.mpr (Or.inr (by decide))))
    rw [hd] at hm
    exact absurd hm (by decide)

/-- C1: for every dependency graph and every seed set of package names, the
closure computation `get_all_dependencies` returns a superset of the seed set:
every name in the direct set is a member of the returned required set. -/
theorem get_all_dependencies_superset (direct_deps : Finset String)
    (deps_graph : DepsGraph) :
    direct_deps ⊆ get_all_dependencies direct_deps deps_graph := by
  unfold get_all_dependencies
  exact (closureInv_reach deps_graph direct_deps
    (closureLoop_reachable deps_graph _ _)
    (closureInv_init deps_graph direct_deps)).direct_sub

/-- Witness for C1 at a concrete input. -/
theorem get_all_dependencies_superset_witness :
    ("a" : String) ∈ get_all_dependencies {"a"} abGraph :=
  get_all_dependencies_superset {"a"} abGraph (by decide)

/-- C2: the set returned by `get_all_dependencies` is closed under the graph's
edges: for every member `p` of the result that has an adjacency entry in the
graph, every recorded child of `p` is also a member of the result. -/
theorem get_all_dependencies_closed (direct_deps : Finset String)
    (deps_graph : DepsGraph) (p c : String)
    (hp : p ∈ get_all_dependencies direct_deps deps_graph)
    (hentry : mem_graph deps_graph p = true)
    (hc : c ∈ childrenOf deps_graph p) :
    c ∈ get_all_dependencies direct_deps deps_graph := by
  unfold get_all_dependencies at hp ⊢
  have hinv := closureInv_reach deps_graph direct_deps
    (closureLoop_reachable deps_graph
      (stateMeasure deps_graph { all_deps := direct_deps, to_process := direct_deps })
      { all_deps := direct_deps, to_process := direct_deps })
    (closureInv_init deps_graph direct_deps)
  have ht := closureLoop_to_process_empty deps_graph
    (stateMeasure deps_graph { all_deps := direct_deps, to_process := direct_deps })
    { all_deps := direct_deps, to_process := direct_deps } (le_refl _)
  exact hinv.processed_closed p hp (by rw [ht]; exact Finset.not_mem_empty p) hc

/-- Witness for C2 at a concrete input. -/
theorem get_all_dependencies_closed_witness :
    ("b" : String) ∈ get_all_dependencies {"a"} abGraph :=
  get_all_dependencies_closed {"a"} abGraph "a" "b" (by decide) (by decide) (by decide)

/-- C3: the work-list loop of `get_all_dependencies` terminates for every
finite graph and seed set, including cyclic graphs (the step relation is
well-founded, so no infinite run exists); any two terminated runs from the same
start agree on the computed set, whatever order elements were popped in; and
the executable `get_all_dependencies` is the result of one such terminated run. -/
theorem get_all_dependencies_terminates_and_confluent (direct_deps : Finset String)
    (deps_graph : DepsGraph) :
    WellFounded (fun t s : ClosureState => closureStep deps_graph s t) ∧
    (∀ s₁ s₂ : ClosureState,
      Relation.ReflTransGen (closureStep deps_graph)
        { all_deps := direct_deps, to_process := direct_deps } s₁ →
      s₁.to_process = ∅ →
      Relation.ReflTransGen (closureStep deps_graph)
        { all_deps := direct_deps, to_process := direct_deps } s₂ →
      s₂.to_process = ∅ →
      s₁.all_deps = s₂.all_deps) ∧
    (∃ t : ClosureState,
      Relation.ReflTransGen (closureStep deps_graph)
        { all_deps := direct_deps, to_process := direct_deps } t ∧
      t.to_process = ∅ ∧
      get_all_dependencies direct_deps deps_graph = t.all_deps) := by
  refine ⟨closureStep_wf deps_graph, ?_, ?_⟩
  · intro s₁ s₂ h1 e1 h2 e2
    ext x
    rw [terminal_all_deps_iff deps_graph direct_deps s₁ h1 e1 x,
      terminal_all_deps_iff deps_graph direct_deps s₂ h2 e2 x]
  · exact ⟨_, closureLoop_reachable deps_graph _ _,
      closureLoop_to_process_empty deps_graph _ _ (le_refl _), rfl⟩

/-- Witness for C3: two runs over the cyclic graph `a → b → a`, popping in the
two possible orders, terminate with the same collected set. -/
theorem get_all_dependencies_confluent_witness :
    (stepState cycleGraph
        (stepState cycleGraph (ClosureState.mk {"a", "b"} {"a", "b"}) "a") "b").all_deps
      = (stepState cycleGraph
        (stepState cycleGraph (ClosureState.mk {"a", "b"} {"a", "b"}) "b") "a").all_deps :=
  (get_all_dependencies_terminates_and_confluent {"a", "b"} cycleGraph).2.1 _ _
    (Relation.ReflTransGen.head
      (closureStep.pop (ClosureState.mk {"a", "b"} {"a", "b"}) "a" (by decide))
      (Relation.ReflTransGen.single
        (closureStep.pop
          (stepState cycleGraph (ClosureState.mk {"a", "b"} {"a", "b"}) "a") "b" (by decide))))
    (by decide)
    (Relation.ReflTransGen.head
      (closureStep.pop (ClosureState.mk {"a", "b"} {"a", "b"}) "b" (by decide))
      (Relation.ReflTransGen.single
        (closureStep.pop
          (stepState cycleGraph (ClosureState.mk {"a", "b"} {"a", "b"}) "b") "a" (by decide))))
    (by decide)

/-- C4 counterexample: with the version map `{"foo_bar": "1.0"}` and every
resolver fallback failing, resolving `"Foo-Bar"` and resolving `"foo_bar"`
consult different version-map entries (only `-` is normalized to `_`, case is
untouched) and yield different versions, refuting the claim as stated. -/
theorem lookup_version_case_counterexample :
    lookup_version vmapFooBar (get_package_version none none none) "Foo-Bar" = "latest" ∧
    lookup_version vmapFooBar (get_package_version none none none) "foo_bar" = "1.0" ∧
    lookup_version vmapFooBar (get_package_version none none none) "Foo-Bar"
      ≠ lookup_version vmapFooBar (get_package_version none none none) "foo_bar" :=
  ⟨by decide, by decide, by decide⟩

/-- C4 (amended): version lookup treats spellings that differ only by `-`
versus `_` as the same package — any two names equal after replacing `-` by `_`
consult the same version-map entry and yield the same version (for example
`"Foo-Bar"` and `"Foo_Bar"`); spellings differing by letter case are not
identified by the lookup. -/
theorem lookup_version_dash_underscore (versions : VersionMap)
    (resolver : String → String) (s t : String)
    (h : dashToUnderscore s = dashToUnderscore t) :
    lookup_version versions resolver s = lookup_version versions resolver t := by
  have hn : normalize_package_name s = normalize_package_name t := by
    rw [normalize_eq_dashToUnderscore, normalize_eq_dashToUnderscore, h]
  unfold lookup_version
  rw [hn]

/-- Witness for the amended C4 at a concrete input. -/
theorem lookup_version_dash_underscore_witness :
    lookup_version vmapFooBar (get_package_version none none none) "Foo-Bar"
      = lookup_version vmapFooBar (get_package_version none none none) "Foo_Bar" :=
  lookup_version_dash_underscore vmapFooBar (get_package_version none none none)
    "Foo-Bar" "Foo_Bar" (by decide)

/-- C5: on the spec's example (direct `{a, b}`, required `{a, b, c}`, versions
`1.0` for `a` and `c`, none for `b`) the manifest writer produces exactly the
direct-section header, `a==1.0`, bare `b`, a blank line, the sub-dependency
header, and `c==1.0`; in general the direct-section header is always the first
line and each section's name order is sorted. -/
theorem manifest_writer_example_sorted_sections :
    manifest_lines {"a", "b"} ({"a", "b", "c"} \ {"a", "b"}) [("a", "1.0"), ("c", "1.0")]
      (get_package_version none none none)
      = ["# 直接依赖", "a==1.0", "b", "", "# 子依赖", "c==1.0"] ∧
    (∀ (d s : Finset String) (v : VersionMap) (r : String → String),
      (manifest_lines d s v r).head? = some "# 直接依赖") ∧
    (∀ d : Finset String, List.Sorted pyLeRel (sortedNames d)) :=
  ⟨by decide, fun _ _ _ _ => rfl, fun d => sortedNames_sorted d⟩

/-- C6: when every fallback strategy of the resolver fails, it returns the
sentinel `"latest"`, which is distinct from every pinnable version; and the
writer never pins that sentinel: every manifest entry line is either a bare
name or `name==v` with `v` a found version different from `"latest"` and `""`. -/
theorem resolver_sentinel_never_pinned :
    (∀ (show_out freeze_out tree_out : Option (List String)) (p : String),
      all_strategies_fail show_out freeze_out tree_out p →
      get_package_version show_out freeze_out tree_out p = "latest") ∧
    (∀ (names : List String) (versions : VersionMap) (resolver : String → String),
      ∀ l ∈ section_lines names versions resolver,
        (∃ n ∈ names, l = n) ∨
        (∃ n ∈ names, ∃ v, v ≠ "" ∧ v ≠ "latest" ∧
          v = lookup_version versions resolver n ∧ l = n ++ "==" ++ v)) :=
  ⟨get_package_version_all_fail, section_lines_shape⟩

/-- Witness for C6: a package for which all three strategies fail resolves to
the sentinel. -/
theorem resolver_sentinel_never_pinned_witness :
    get_package_version none none none "foo" = "latest" :=
  resolver_sentinel_never_pinned.1 none none none "foo"
    ⟨fun ls hls => (by cases hls), fun ls hls => (by cases hls),
     fun ls hls => (by cases hls)⟩

/-- C7: when the scanner yields no packages, or no dependency information is
available (empty version map or empty graph), `generate_requirements` ends the
run without producing a manifest: the result is `none`, so the output file is
never opened or modified. -/
theorem generate_requirements_no_output_on_empty (scan : Option (List String))
    (treeData : Option (PkgForest × List String))
    (show_out : String → Option (List String))
    (freeze_out tree_out : Option (List String))
    (h : get_imported_packages scan = ∅ ∨ (get_dependency_tree treeData).1 = []
      ∨ (get_dependency_tree treeData).2 = []) :
    generate_requirements scan treeData show_out freeze_out tree_out = none := by
  simp only [generate_requirements]
  by_cases h1 : get_imported_packages scan = ∅
  · rw [if_pos h1]
  · rw [if_neg h1]
    have h2 : (get_dependency_tree treeData).1 = []
        ∨ (get_dependency_tree treeData).2 = [] := by
      rcases h with h | h
      · exact absurd h h1
      · exact h
    rw [if_pos h2]

/-- Witness for C7: a failed scan produces no manifest. -/
theorem generate_requirements_no_output_witness :
    generate_requirements none (some (singleVisitForest, ["a==1.0", "b==2.0"]))
      (fun _ => none) none none = none :=
  generate_requirements_no_output_on_empty none
    (some (singleVisitForest, ["a==1.0", "b==2.0"])) (fun _ => none) none none
    (Or.inl (by decide))

/-- C8 counterexample: on the tree in which `a` occurs first with child `b` and
then with no children, the first visit records `b` as a child of `a`, but
re-processing `a` resets its entry and removes `b`; re-visiting is therefore
not a set union, refuting the claim as stated. -/
theorem process_dependencies_revisit_counterexample :
    ("b" : String) ∈ ((gfind (build_deps_graph singleVisitForest) "a").getD ∅) ∧
    ("b" : String) ∉ ((gfind (build_deps_graph doubleVisitForest) "a").getD ∅) :=
  ⟨by decide, by decide⟩

/-- C8 (amended): re-visiting a node overwrites rather than unions: each visit
resets the node's child-set, so after processing a node whose normalized key is
non-empty and does not reappear among its recursively visited descendants, the
node's adjacency entry is exactly the set of that visit's direct (non-empty,
lowercased) child keys, whatever children earlier visits had recorded. -/
theorem process_dependencies_overwrites (key : String) (deps : PkgForest)
    (g : DepsGraph) (h1 : pyLower key ≠ "")
    (h2 : pyLower key ∉ forestTouched deps) :
    gfind (process_dependencies (PkgTree.node key deps) g) (pyLower key)
      = some (forestDirectNames deps) := by
  unfold process_dependencies
  rw [if_neg h1]
  rw [gfind_process_deps_list_entry (pyLower key) deps _ ∅
    (gfind_gset_self g (pyLower key) ∅) h2]
  simp

/-- Witness for the amended C8: processing `a` with no children over a graph
that already records `b` as a child of `a` leaves an empty entry for `a`. -/
theorem process_dependencies_overwrites_witness :
    gfind (process_dependencies (PkgTree.node "a" PkgForest.nil) [("a", {"b"})])
      (pyLower "a") = some (forestDirectNames PkgForest.nil) :=
  process_dependencies_overwrites "a" PkgForest.nil [("a", {"b"})] (by decide) (by decide)

/-- C9: in direct-only mode (the CLI flag disabling sub-dependency expansion,
modelled from the spec since the flagged variant is not under `src/`) any
produced output consists of the direct-dependency section alone, and the
sub-dependency header never appears, even if the graph has children for the
direct packages. -/
theorem direct_only_no_sub_section (scan : Option (List String))
    (treeData : Option (PkgForest × List String))
    (show_out : String → Option (List String))
    (freeze_out tree_out : Option (List String)) (lines : List String)
    (h : generate_requirements_direct_only scan treeData show_out freeze_out tree_out
      = some lines) :
    lines = "# 直接依赖" :: section_lines (sortedNames (get_imported_packages scan))
      (get_dependency_tree treeData).1
      (fun p => get_package_version (show_out p) freeze_out tree_out p) ∧
    ("# 子依赖" ∉ get_imported_packages scan → "# 子依赖" ∉ lines) := by
  simp only [generate_requirements_direct_only] at h
  split at h
  · cases h
  · split at h
    · cases h
    · injection h with h
      subst h
      refine ⟨rfl, ?_⟩
      intro hnotin hmem
      rcases List.mem_cons.mp hmem with he | hmem2
      · exact absurd he (by decide)
      · rcases section_lines_shape _ _ _ _ hmem2 with ⟨n, hn, he⟩ | ⟨n, hn, v, _, _, _, he⟩
        · exact hnotin (he ▸ mem_sortedNames.mp hn)
        · have hd := congrArg String.data he
          rw [String.data_append, String.data_append] at hd
          have hm : ('=' : Char) ∈ n.data ++ "==".data ++ v.data :=
            List.mem_append.mpr (Or.inl (List.mem_append.mpr (Or.inr (by decide))))
          rw [← hd] at hm
          exact absurd hm (by decide)

/-- Witness for C9 at a concrete input with a graph that has children for the
direct package. -/
theorem direct_only_no_sub_section_witness :
    (["# 直接依赖", "a==1.0"]
        = "# 直接依赖" :: section_lines
          (sortedNames (get_imported_packages (some ["a==1.0"])))
          (get_dependency_tree (some (singleVisitForest, ["a==1.0", "b==2.0"]))).1
          (fun p => get_package_version ((fun _ => none) p) none none p)) ∧
    ("# 子依赖" ∉ get_imported_packages (some ["a==1.0"]) →
      "# 子依赖" ∉ ["# 直接依赖", "a==1.0"]) :=
  direct_only_no_sub_section (some ["a==1.0"])
    (some (singleVisitForest, ["a==1.0", "b==2.0"])) (fun _ => none) none none
    ["# 直接依赖", "a==1.0"] (by decide)

/-- C10: every package name the scanner places into the direct set is
lowercase, and every version-map key produced by the freeze parser and every
key and child name produced by the dependency-graph builder is lowercase, so
all downstream lookups and sorting operate on lowercase names only. -/
theorem produced_names_lowercase :
    (∀ (scan : Option (List String)), ∀ p ∈ get_imported_packages scan, is_lowercase p) ∧
    (∀ (freezeLines : List String) (vm : VersionMap),
      parse_versions freezeLines = some vm → ∀ kv ∈ vm, is_lowercase kv.1) ∧
    (∀ (tree : PkgForest), ∀ kv ∈ build_deps_graph tree,
      is_lowercase kv.1 ∧ ∀ c ∈ kv.2, is_lowercase c) := by
  refine ⟨?_, ?_, ?_⟩
  · intro scan p hp
    cases scan with
    | none => exact absurd hp (Finset.not_mem_empty p)
    | some lines =>
      unfold get_imported_packages at hp
      rcases List.mem_map.mp (List.mem_toFinset.mp hp) with ⟨l, _, he⟩
      rw [← he]
      exact pyLower_is_lowercase _
  · intro freezeLines vm h
    exact parse_versions_foldlM_lower freezeLines [] vm
      (fun kv hkv => absurd hkv (List.not_mem_nil kv)) h
  · intro tree kv hkv
    exact build_deps_graph_from_lower tree []
      (fun kv hkv => absurd hkv (List.not_mem_nil kv)) kv hkv

/-- Witness for C10: a concrete graph entry produced by the builder is
lowercase with lowercase children. -/
theorem produced_names_lowercase_witness :
    is_lowercase ("a", ({"b"} : Finset String)).1 ∧
    ∀ c ∈ ("a", ({"b"} : Finset String)).2, is_lowercase c :=
  produced_names_lowercase.2.2 singleVisitForest ("a", {"b"}) (by decide)
